import Mathlib

/-!
Shallow embedding of the statistical test engine of `stats.cpp` (a small
NIST-style RNG test battery over buffers of 32-bit words), together with
theorems checking the natural-language specification against it.

Modelling conventions:
* A buffer `const uint32_t *w` with its length is a `List ℕ` whose entries
  are the words (each `< 2 ^ 32` where it matters, stated as a hypothesis).
* IEEE double arithmetic is idealized: expressions that stay inside the
  rationals are modelled in `ℚ`, expressions involving `sqrt`/`erfc` in `ℝ`.
  `erfc` itself is kept abstract (a function parameter `erfc : ℝ → ℝ`);
  theorems that need facts about the real `erfc` take them as hypotheses.
* The boolean verdict `return p >= 0.01;` of each NIST test is modelled as a
  `Prop` that holds exactly when the function returns 1; an early
  `return 0;` becomes a conjunct recording that the guard did not fire.
* Machine integers: the `uint64_t` accumulator of `mean` and the
  `(uint64_t)x * bins` product of `chi_squared` carry an explicit `% 2 ^ 64`;
  the C cast `(int)` of a `double` (truncation toward zero) is `cTrunc`.
-/

namespace NistLw3

/-- Bit `i` of the word buffer: `(w[i / 32] >> (i % 32)) & 1u`.
Out-of-range word accesses (which the C code never performs for
`i < 32 * len`) default to `0`. -/
def bitAt (w : List ℕ) (i : ℕ) : ℕ :=
  (w.getD (i / 32) 0 >>> (i % 32)) % 2

/-- The `while (x)` loop of `popcount32`, with explicit fuel: for a
32-bit word the body runs at most 32 times, so fuel 32 is exact. -/
def popcountAux : ℕ → ℕ → ℕ
  | 0, _ => 0
  | f + 1, x => if x = 0 then 0 else x % 2 + popcountAux f (x / 2)

/-- `popcount32`: number of set bits of a 32-bit word. -/
def popcount32 (x : ℕ) : ℕ := popcountAux 32 x

/-- `mean(data, n)`: sums into a `uint64_t` accumulator (hence the
`% 2 ^ 64`) and divides by `n` in double precision, idealized as `ℚ`. -/
def mean (data : List ℕ) : ℚ :=
  ((data.foldl (fun s x => (s + x) % 2 ^ 64) 0 : ℕ) : ℚ) / data.length

/-- `stdev(data, n, m)`: accumulates `(data[i] - m) * (data[i] - m)` in a
double accumulator and returns `sqrt(acc / n)`. -/
noncomputable def stdev (data : List ℕ) (m : ℝ) : ℝ :=
  Real.sqrt (data.foldl (fun acc (x : ℕ) => acc + ((x : ℝ) - m) * ((x : ℝ) - m)) 0 /
    data.length)

/-- `coeff_var(m, sd)`: `m == 0.0 ? 0.0 : sd / m`. -/
def coeff_var (m sd : ℚ) : ℚ :=
  if m = 0 then 0 else sd / m

/-- Bin index of one sample in `chi_squared`:
`int idx = ((uint64_t)data[i] * bins) / max_val; if (idx >= bins) idx = bins - 1;`.
The product is taken in `uint64_t`, hence the `% 2 ^ 64`. -/
def binIdx (bins maxVal x : ℕ) : ℕ :=
  let idx := x * bins % 2 ^ 64 / maxVal
  if bins ≤ idx then bins - 1 else idx

/-- Histogram count `freq[i]` built by the first loop of `chi_squared`. -/
def freqCount (data : List ℕ) (bins maxVal i : ℕ) : ℕ :=
  (data.map (binIdx bins maxVal)).count i

/-- `chi_squared(data, n, bins, max_val)`: `Σ (freq[i] - expected)² / expected`
with `expected = (double)n / bins`, idealized in `ℚ`. -/
def chi_squared (data : List ℕ) (bins maxVal : ℕ) : ℚ :=
  ∑ i in Finset.range bins,
    ((freqCount data bins maxVal i : ℚ) - (data.length : ℚ) / bins) ^ 2 /
      ((data.length : ℚ) / bins)

/-- Total set-bit count `ones` of `nist_monobit`: `ones += popcount32(w[i])`. -/
def onesTotal (w : List ℕ) : ℕ := (w.map popcount32).sum

/-- `nist_monobit(w, len)` returns 1 iff this proposition holds:
`erfc(fabs(2.0 * ones - n) / sqrt(n) / sqrt(2.0)) >= 0.01` with `n = 32 * len`. -/
def nist_monobit (erfc : ℝ → ℝ) (w : List ℕ) : Prop :=
  0.01 ≤ erfc (|2 * (onesTotal w : ℝ) - (32 * w.length : ℝ)| /
    Real.sqrt (32 * w.length) / Real.sqrt 2)

/-- Set-bit count of block `b` in `nist_block_frequency`; the running bit
cursor of the C loop sits at `b * M + i` when block `b` processes bit `i`. -/
def blockOnes (w : List ℕ) (M b : ℕ) : ℕ :=
  ∑ i in Finset.range M, bitAt w (b * M + i)

/-- `nist_block_frequency(w, len, M)` returns 1 iff this proposition holds:
the guard `nBlocks < 20` (early `return 0`) did not fire, and the p-value
`erfc(sqrt(chi/2) / sqrt(nBlocks/2))` with `chi = 4M * Σ (π_b - 0.5)²`
is at least `0.01`. -/
def nist_block_frequency (erfc : ℝ → ℝ) (w : List ℕ) (M : ℕ) : Prop :=
  20 ≤ 32 * w.length / M ∧
    0.01 ≤ erfc (Real.sqrt ((4 * (M : ℝ) *
        ∑ b in Finset.range (32 * w.length / M),
          ((blockOnes w M b : ℝ) / M - 0.5) ^ 2) / 2) /
      Real.sqrt ((32 * w.length / M : ℕ) / 2))

/-- One iteration of the loop of `nist_runs` on state `(prev, ones, runsCnt)`:
`ones += bit; if (bit != prev) { ++runsCnt; prev = bit; }`. -/
def runsStep (st : ℕ × ℕ × ℕ) (b : ℕ) : ℕ × ℕ × ℕ :=
  (if b ≠ st.1 then b else st.1, st.2.1 + b, if b ≠ st.1 then st.2.2 + 1 else st.2.2)

/-- State `(prev, ones, runsCnt)` after the loop of `nist_runs`: initialized
from bit 0 (`prev = w[0] & 1; ones += prev; runsCnt = 1;`), then folded
over bits `1 .. n-1`. -/
def runsState (w : List ℕ) : ℕ × ℕ × ℕ :=
  ((((List.range (32 * w.length)).drop 1).map (bitAt w)).foldl runsStep
    (bitAt w 0, bitAt w 0, 1))

/-- `nist_runs(w, len)` returns 1 iff this proposition holds: the
prerequisite frequency guard `fabs(pi - 0.5) > 2.0 / sqrt(n)` (early
`return 0`) did not fire, and `erfc(z) >= 0.01` for the normalized runs
statistic `z`. -/
def nist_runs (erfc : ℝ → ℝ) (w : List ℕ) : Prop :=
  ¬(2 / Real.sqrt (32 * w.length) <
      |((runsState w).2.1 : ℝ) / (32 * w.length : ℝ) - 0.5|) ∧
    0.01 ≤ erfc (|((runsState w).2.2 : ℝ) -
        2 * (32 * w.length : ℝ) * (((runsState w).2.1 : ℝ) / (32 * w.length : ℝ)) *
          (1 - ((runsState w).2.1 : ℝ) / (32 * w.length : ℝ))| /
      (2 * Real.sqrt (2 * (32 * w.length : ℝ)) *
        (((runsState w).2.1 : ℝ) / (32 * w.length : ℝ)) *
        (1 - ((runsState w).2.1 : ℝ) / (32 * w.length : ℝ))))

/-- One iteration of the loop of `nist_cumulative_sums` on state `(s, zmax)`:
`s += bit ? 1 : -1; if (s > zmax) zmax = s; else if (-s > zmax) zmax = -s;`. -/
def csumStep (p : ℤ × ℤ) (b : ℕ) : ℤ × ℤ :=
  let s := p.1 + if b ≠ 0 then 1 else -1
  (s, if p.2 < s then s else if p.2 < -s then -s else p.2)

/-- State `(s, zmax)` after the excursion loop of `nist_cumulative_sums`. -/
def csumState (w : List ℕ) : ℤ × ℤ :=
  ((List.range (32 * w.length)).map (bitAt w)).foldl csumStep (0, 0)

/-- Maximum absolute prefix-sum excursion `zmax` of `nist_cumulative_sums`. -/
def csumZmax (w : List ℕ) : ℤ := (csumState w).2

/-- The C cast `(int)` applied to a `double`: truncation toward zero
(doubles idealized as exact rationals). -/
def cTrunc (q : ℚ) : ℤ :=
  if 0 ≤ q then ⌊q⌋ else ⌈q⌉

/-- `int start = (int)((-((double)n / zmax) + 1.0) / 4.0);`. -/
def csumStart (w : List ℕ) : ℤ :=
  cTrunc ((-((32 * w.length : ℚ) / (csumZmax w : ℚ)) + 1) / 4)

/-- `int end = (int)(((double)n / zmax - 1.0) / 4.0);`. -/
def csumEnd (w : List ℕ) : ℤ :=
  cTrunc (((32 * w.length : ℚ) / (csumZmax w : ℚ) - 1) / 4)

/-- `nist_cumulative_sums(w, len)` returns 1 iff this proposition holds: the
guard `zmax == 0` (early `return 0`) did not fire, and
`p = 1 - Σ_{k=start}^{end} (erfc(a_k) - erfc(b_k)) >= 0.01` with
`a_k = (4k+1)·zmax/√(2n)` and `b_k = (4k-1)·zmax/√(2n)`. -/
def nist_cumulative_sums (erfc : ℝ → ℝ) (w : List ℕ) : Prop :=
  csumZmax w ≠ 0 ∧
    0.01 ≤ 1 - ∑ k in Finset.Icc (csumStart w) (csumEnd w),
      (erfc ((4 * (k : ℝ) + 1) * (csumZmax w : ℝ) /
          Real.sqrt (2 * (32 * w.length : ℝ))) -
        erfc ((4 * (k : ℝ) - 1) * (csumZmax w : ℝ) /
          Real.sqrt (2 * (32 * w.length : ℝ))))

/-- Loop state of `nist_serial2`: the single-bit counters `c1[2]`, the pair
counters `c2[4]` (as functions on the index), and `prev` (the C sentinel
`prev = -1` is `none`). -/
structure Serial2State where
  c1 : ℕ → ℕ
  c2 : ℕ → ℕ
  prev : Option ℕ

/-- One iteration of the loop of `nist_serial2`:
`++c1[b]; if (prev != -1) ++c2[(prev << 1) | b]; prev = b;`. -/
def serial2Step (st : Serial2State) (b : ℕ) : Serial2State where
  c1 := fun j => if j = b then st.c1 j + 1 else st.c1 j
  c2 := match st.prev with
    | none => st.c2
    | some p => fun j => if j = (p <<< 1) ||| b then st.c2 j + 1 else st.c2 j
  prev := some b

/-- State after the main loop of `nist_serial2`. -/
def serial2Loop (w : List ℕ) : Serial2State :=
  ((List.range (32 * w.length)).map (bitAt w)).foldl serial2Step
    ⟨fun _ => 0, fun _ => 0, none⟩

/-- The pair counters `c2` after the wraparound increment
`++c2[(prev << 1) | first];` that follows the loop (with
`first = w[0] & 1`).  For an empty buffer `prev` is still the sentinel and
the C code would index `c2` out of range; the model leaves `c2` unchanged
there (all theorems assume `len ≥ 1`). -/
def serial2C2 (w : List ℕ) : ℕ → ℕ :=
  match (serial2Loop w).prev with
  | none => (serial2Loop w).c2
  | some p => fun j =>
      if j = (p <<< 1) ||| bitAt w 0 then (serial2Loop w).c2 j + 1
      else (serial2Loop w).c2 j

/-- Sum of the four pair counters `c2[0] + c2[1] + c2[2] + c2[3]`. -/
def c2sum (f : ℕ → ℕ) : ℕ := f 0 + f 1 + f 2 + f 3

/-- The bitstream of a buffer as a list: bits `0 .. 32*len - 1`. -/
def bitsOf (w : List ℕ) : List ℕ :=
  (List.range (32 * w.length)).map (bitAt w)

/-- Proportion of one-bits of the whole bitstream (the `pi` of `nist_runs`),
written independently of the loop embedding. -/
noncomputable def onesFrac (w : List ℕ) : ℝ :=
  ((bitsOf w).sum : ℝ) / (32 * w.length : ℝ)

/-- Number of positions at which a bit differs from its predecessor, the
predecessor of the first listed bit being `p`. -/
def changes : ℕ → List ℕ → ℕ
  | _, [] => 0
  | p, b :: t => (if b = p then 0 else 1) + changes b t

/-- Number of maximal runs of identical consecutive bits of a bitstream. -/
def runsSpec : List ℕ → ℕ
  | [] => 0
  | b :: t => 1 + changes b t

/-- Last element of a list, or `p` for the empty list. -/
def lastAux : ℕ → List ℕ → ℕ
  | p, [] => p
  | _, b :: t => lastAux b t

/-- A reference model of `erfc` good enough to discharge the abstract
`erfc` hypotheses of the witnesses: it is `1` at `0` and below `0.01`
from `4` on, as the true complementary error function is. -/
noncomputable def erfcModel (x : ℝ) : ℝ := 1 - min 1 (max 0 (x - 3))

theorem erfcModel_zero : erfcModel 0 = 1 := by
  have h1 : max 0 ((0 : ℝ) - 3) = 0 := max_eq_left (by norm_num)
  have h2 : min (1 : ℝ) 0 = 0 := min_eq_right (by norm_num)
  simp [erfcModel, h1, h2]

theorem erfcModel_small : ∀ x : ℝ, 4 ≤ x → erfcModel x < 0.01 := by
  intro x hx
  have h1 : (1 : ℝ) ≤ max 0 (x - 3) := le_max_of_le_right (by linarith)
  have h2 : min 1 (max 0 (x - 3)) = 1 := min_eq_left h1
  simp only [erfcModel, h2]
  norm_num

theorem bitAt_le_one (w : List ℕ) (i : ℕ) : bitAt w i ≤ 1 := by
  unfold bitAt; omega

/-- The bitstream of a nonempty buffer starts with bit 0. -/
theorem bits_map_eq_cons (w : List ℕ) (hw : 1 ≤ w.length) :
    (List.range (32 * w.length)).map (bitAt w) =
      bitAt w 0 :: (List.range (32 * w.length - 1)).map (fun i => bitAt w (i + 1)) := by
  obtain ⟨m, hm⟩ : ∃ m, 32 * w.length = m + 1 := ⟨32 * w.length - 1, by omega⟩
  rw [hm, List.range_succ_eq_map, List.map_cons, List.map_map]
  have hm' : m + 1 - 1 = m := by omega
  rw [hm']
  rfl

theorem csumStep_zmax_le (p : ℤ × ℤ) (b : ℕ) : p.2 ≤ (csumStep p b).2 := by
  unfold csumStep
  dsimp only
  split_ifs <;> omega

theorem csum_foldl_zmax_mono (l : List ℕ) :
    ∀ p : ℤ × ℤ, p.2 ≤ (l.foldl csumStep p).2 := by
  induction l with
  | nil => intro p; simp
  | cons b t ih =>
    intro p
    calc p.2 ≤ (csumStep p b).2 := csumStep_zmax_le p b
      _ ≤ (t.foldl csumStep (csumStep p b)).2 := ih (csumStep p b)
      _ = ((b :: t).foldl csumStep p).2 := by rw [List.foldl_cons]

theorem csum_foldl_bounds (l : List ℕ) :
    ∀ p : ℤ × ℤ, |(l.foldl csumStep p).1| ≤ |p.1| + l.length ∧
      (l.foldl csumStep p).2 ≤ max p.2 (|p.1| + l.length) := by
  induction l with
  | nil => intro p; simp
  | cons b t ih =>
    intro p
    have hfst : (csumStep p b).1 = p.1 + if b ≠ 0 then 1 else -1 := rfl
    have h1 : |(csumStep p b).1| ≤ |p.1| + 1 := by
      rw [hfst]
      split_ifs
      · calc |p.1 + 1| ≤ |p.1| + |(1 : ℤ)| := abs_add _ _
          _ = |p.1| + 1 := by norm_num
      · calc |p.1 + (-1)| ≤ |p.1| + |(-1 : ℤ)| := abs_add _ _
          _ = |p.1| + 1 := by norm_num
    have h2 : (csumStep p b).2 ≤ max p.2 |(csumStep p b).1| := by
      conv_lhs => rw [show (csumStep p b).2 =
        (if p.2 < (csumStep p b).1 then (csumStep p b).1
          else if p.2 < -(csumStep p b).1 then -(csumStep p b).1 else p.2) from rfl]
      split_ifs
      · exact le_max_of_le_right (le_abs_self _)
      · exact le_max_of_le_right (neg_le_abs _)
      · exact le_max_left _ _
    obtain ⟨ih1, ih2⟩ := ih (csumStep p b)
    rw [List.foldl_cons]
    constructor
    · calc |(t.foldl csumStep (csumStep p b)).1| ≤ |(csumStep p b).1| + t.length := ih1
        _ ≤ |p.1| + 1 + t.length := by linarith
        _ = |p.1| + (b :: t).length := by simp; ring
    · have hlen : ((b :: t).length : ℤ) = t.length + 1 := by simp
      calc (t.foldl csumStep (csumStep p b)).2
          ≤ max (csumStep p b).2 (|(csumStep p b).1| + t.length) := ih2
        _ ≤ max p.2 (|p.1| + (b :: t).length) := by
            apply max_le
            · refine le_trans h2 (max_le (le_max_left _ _) (le_max_of_le_right ?_))
              rw [hlen]
              have h0 : (0 : ℤ) ≤ t.length := by positivity
              linarith
            · refine le_max_of_le_right ?_
              rw [hlen]
              linarith

theorem csumZmax_ge_one (w : List ℕ) (hw : 1 ≤ w.length) : 1 ≤ csumZmax w := by
  unfold csumZmax csumState
  rw [bits_map_eq_cons w hw, List.foldl_cons]
  have hfirst : (csumStep (0, 0) (bitAt w 0)).2 = 1 := by
    by_cases hb : bitAt w 0 ≠ 0 <;> simp [csumStep, hb]
  calc (1 : ℤ) = (csumStep (0, 0) (bitAt w 0)).2 := hfirst.symm
    _ ≤ _ := csum_foldl_zmax_mono _ _

theorem csumZmax_le_nbits (w : List ℕ) : csumZmax w ≤ 32 * w.length := by
  have h := (csum_foldl_bounds ((List.range (32 * w.length)).map (bitAt w)) (0, 0)).2
  simp only [List.length_map, List.length_range] at h
  unfold csumZmax csumState
  calc (((List.range (32 * w.length)).map (bitAt w)).foldl csumStep (0, 0)).2
      ≤ max (0 : ℤ) (|(0 : ℤ)| + (32 * w.length : ℕ)) := h
    _ = ((32 * w.length : ℕ) : ℤ) := by simp
    _ ≤ 32 * w.length := by push_cast; omega

theorem cTrunc_of_nonneg (q : ℚ) (h : 0 ≤ q) : cTrunc q = ⌊q⌋ := if_pos h

theorem cTrunc_of_nonpos (q : ℚ) (h : q ≤ 0) : cTrunc q = ⌈q⌉ := by
  unfold cTrunc
  by_cases h0 : 0 ≤ q
  · have hq : q = 0 := le_antisymm h h0
    simp [hq]
  · simp [h0]

/-- C5: `coeff_var` is `0` at zero mean and `sd / m` otherwise, a defined
degenerate-case result rather than a division by zero. -/
theorem coeff_var_spec (m sd : ℚ) (hm : m ≠ 0) :
    coeff_var m sd = sd / m ∧ ∀ t : ℚ, coeff_var 0 t = 0 :=
  ⟨if_neg hm, fun t => if_pos rfl⟩

/-- Witness for C5 at `m = 2`, `sd = 5`. -/
theorem coeff_var_spec_witness :
    (2 : ℚ) ≠ 0 ∧ (coeff_var 2 5 = 5 / 2 ∧ ∀ t : ℚ, coeff_var 0 t = 0) :=
  ⟨by norm_num, coeff_var_spec 2 5 (by norm_num)⟩

/-- C2: with fewer than 20 complete `M`-bit blocks, `nist_block_frequency`
returns the fail verdict regardless of the bit content. -/
theorem block_frequency_few_blocks_fail (erfc : ℝ → ℝ) (w : List ℕ) (M : ℕ)
    (hw : 1 ≤ w.length) (hM : 1 ≤ M) (h : 32 * w.length / M < 20) :
    ¬ nist_block_frequency erfc w M := by
  intro hpass
  exact absurd hpass.1 (by omega)

/-- Witness for C2: one word, `M = 32`, giving a single block. -/
theorem block_frequency_few_blocks_fail_witness :
    1 ≤ List.length [(0 : ℕ)] ∧ 1 ≤ 32 ∧ 32 * List.length [(0 : ℕ)] / 32 < 20 ∧
      ¬ nist_block_frequency (fun _ => 1) [(0 : ℕ)] 32 :=
  ⟨by decide, by decide, by decide,
    block_frequency_few_blocks_fail (fun _ => 1) [0] 32 (by decide) (by decide) (by decide)⟩

/-- C10: for a nonempty buffer the first bit already moves the running sum
to `+1` or `-1`, so `zmax ≥ 1`: the `zmax == 0` fail branch is unreachable
and the divisions by `zmax` never divide by zero. -/
theorem csum_zmax_pos (w : List ℕ) (hw : 1 ≤ w.length) :
    1 ≤ csumZmax w ∧ csumZmax w ≠ 0 := by
  have h := csumZmax_ge_one w hw
  exact ⟨h, by omega⟩

/-- Witness for C10 at the one-word all-zero buffer. -/
theorem csum_zmax_pos_witness :
    1 ≤ List.length [(0 : ℕ)] ∧ 1 ≤ csumZmax [(0 : ℕ)] ∧ csumZmax [(0 : ℕ)] ≠ 0 :=
  ⟨by decide, csum_zmax_pos [0] (by decide)⟩

set_option maxRecDepth 100000 in
/-- Counterexample to C1 as stated: for the one-word buffer `0x0000FFFF`
(16 low one-bits then 16 zero-bits) the excursion is `zmax = 16`, and the
code's `start` (the C cast, truncation toward zero) is `0`, while the floor
of `(-n/zmax + 1)/4 = -1/4` is `-1`. -/
theorem cumulative_sums_start_not_floor :
    csumZmax [(65535 : ℕ)] = 16 ∧ csumStart [(65535 : ℕ)] = 0 ∧
      ⌊((-((32 * ([(65535 : ℕ)].length : ℚ)) / (csumZmax [(65535 : ℕ)] : ℚ)) + 1) / 4)⌋ = -1 ∧
      csumStart [(65535 : ℕ)] ≠
        ⌊((-((32 * ([(65535 : ℕ)].length : ℚ)) / (csumZmax [(65535 : ℕ)] : ℚ)) + 1) / 4)⌋ := by
  have hz : csumZmax [(65535 : ℕ)] = 16 := by decide
  have h2 : csumStart [(65535 : ℕ)] = 0 := by norm_num [csumStart, cTrunc, hz]
  have h3 : ⌊((-((32 * ([(65535 : ℕ)].length : ℚ)) / (csumZmax [(65535 : ℕ)] : ℚ)) + 1) / 4)⌋ =
      -1 := by norm_num [hz]
  exact ⟨hz, h2, h3, by rw [h2, h3]; decide⟩

/-- C1 amended: `nist_cumulative_sums` sums the `erfc` terms over the
integer range from `start` to `end` where both bounds are C casts to `int`
(truncation toward zero); since `1 ≤ zmax ≤ n` the start argument is
nonpositive, so `start` is the ceiling (not the floor) of
`(-n/zmax + 1)/4`, while `end` is the floor of `(n/zmax - 1)/4`; the
verdict is pass iff `p = 1 - Σ (erfc aₖ - erfc bₖ) ≥ 0.01`. -/
theorem cumulative_sums_start_trunc (erfc : ℝ → ℝ) (w : List ℕ) (hw : 1 ≤ w.length) :
    csumStart w = ⌈(-((32 * w.length : ℚ) / (csumZmax w : ℚ)) + 1) / 4⌉ ∧
    csumEnd w = ⌊((32 * w.length : ℚ) / (csumZmax w : ℚ) - 1) / 4⌋ ∧
    (nist_cumulative_sums erfc w ↔
      0.01 ≤ 1 - ∑ k in Finset.Icc (csumStart w) (csumEnd w),
        (erfc ((4 * (k : ℝ) + 1) * (csumZmax w : ℝ) /
            Real.sqrt (2 * (32 * w.length : ℝ))) -
          erfc ((4 * (k : ℝ) - 1) * (csumZmax w : ℝ) /
            Real.sqrt (2 * (32 * w.length : ℝ))))) := by
  have h1 : 1 ≤ csumZmax w := csumZmax_ge_one w hw
  have h2 : csumZmax w ≤ 32 * w.length := csumZmax_le_nbits w
  have hzq : (0 : ℚ) < (csumZmax w : ℚ) := by exact_mod_cast h1
  have hq : (1 : ℚ) ≤ (32 * w.length : ℚ) / (csumZmax w : ℚ) := by
    rw [le_div_iff hzq, one_mul]
    have : ((csumZmax w : ℤ) : ℚ) ≤ ((32 * w.length : ℤ) : ℚ) := by exact_mod_cast h2
    calc (csumZmax w : ℚ) ≤ ((32 * w.length : ℤ) : ℚ) := this
      _ = (32 * w.length : ℚ) := by push_cast; ring
  refine ⟨?_, ?_, ?_⟩
  · unfold csumStart
    exact cTrunc_of_nonpos _ (by linarith)
  · unfold csumEnd
    exact cTrunc_of_nonneg _ (by linarith)
  · constructor
    · intro h
      exact h.2
    · intro h
      exact ⟨by omega, h⟩

/-- Witness for the amended C1 at the buffer `[0x0000FFFF]`. -/
theorem cumulative_sums_start_trunc_witness :
    1 ≤ List.length [(65535 : ℕ)] ∧
    (csumStart [(65535 : ℕ)] =
        ⌈(-((32 * ([(65535 : ℕ)].length : ℚ)) / (csumZmax [(65535 : ℕ)] : ℚ)) + 1) / 4⌉ ∧
      csumEnd [(65535 : ℕ)] =
        ⌊((32 * ([(65535 : ℕ)].length : ℚ)) / (csumZmax [(65535 : ℕ)] : ℚ) - 1) / 4⌋ ∧
      (nist_cumulative_sums (fun _ => 0) [(65535 : ℕ)] ↔
        0.01 ≤ 1 - ∑ k in Finset.Icc (csumStart [(65535 : ℕ)]) (csumEnd [(65535 : ℕ)]),
          ((fun _ => (0 : ℝ)) ((4 * (k : ℝ) + 1) * (csumZmax [(65535 : ℕ)] : ℝ) /
              Real.sqrt (2 * (32 * ([(65535 : ℕ)].length : ℝ)))) -
            (fun _ => (0 : ℝ)) ((4 * (k : ℝ) - 1) * (csumZmax [(65535 : ℕ)] : ℝ) /
              Real.sqrt (2 * (32 * ([(65535 : ℕ)].length : ℝ))))))) :=
  ⟨by decide, cumulative_sums_start_trunc (fun _ => 0) [65535] (by decide)⟩

theorem c2sum_update (f : ℕ → ℕ) (p b : ℕ) (hp : p ≤ 1) (hb : b ≤ 1) :
    c2sum (fun j => if j = (p <<< 1) ||| b then f j + 1 else f j) = c2sum f + 1 := by
  interval_cases p <;> interval_cases b <;> simp [c2sum] <;> omega

theorem serial2_fold (l : List ℕ) :
    ∀ (st : Serial2State) (p : ℕ), st.prev = some p → p ≤ 1 → (∀ b ∈ l, b ≤ 1) →
      c2sum (l.foldl serial2Step st).c2 = c2sum st.c2 + l.length ∧
      ∃ q, (l.foldl serial2Step st).prev = some q ∧ q ≤ 1 := by
  induction l with
  | nil => intro st p hprev hp _; exact ⟨by simp, p, hprev, hp⟩
  | cons b t ih =>
    intro st p hprev hp hl
    have hb : b ≤ 1 := hl b (by simp)
    have hc2 : (serial2Step st b).c2 =
        fun j => if j = (p <<< 1) ||| b then st.c2 j + 1 else st.c2 j := by
      simp [serial2Step, hprev]
    have hstep : c2sum (serial2Step st b).c2 = c2sum st.c2 + 1 := by
      rw [hc2]; exact c2sum_update st.c2 p b hp hb
    obtain ⟨hsum, hq⟩ := ih (serial2Step st b) b rfl hb (fun x hx => hl x (by simp [hx]))
    refine ⟨?_, by simpa using hq⟩
    rw [List.foldl_cons, hsum, hstep]
    simp
    omega

/-- C4: `nist_serial2` treats the bitstream as cyclic — the wraparound pair
increment after the loop closes the window — so the four pair counters sum
to exactly `n = 32 * len`. -/
theorem serial2_pair_count_total (w : List ℕ) (hw : 1 ≤ w.length) :
    serial2C2 w 0 + serial2C2 w 1 + serial2C2 w 2 + serial2C2 w 3 = 32 * w.length := by
  have hbits := bits_map_eq_cons w hw
  have hloop : serial2Loop w =
      ((List.range (32 * w.length - 1)).map (fun i => bitAt w (i + 1))).foldl serial2Step
        (serial2Step ⟨fun _ => 0, fun _ => 0, none⟩ (bitAt w 0)) := by
    unfold serial2Loop
    rw [hbits, List.foldl_cons]
  set st1 : Serial2State := serial2Step ⟨fun _ => 0, fun _ => 0, none⟩ (bitAt w 0) with hst1
  have hst1prev : st1.prev = some (bitAt w 0) := rfl
  have hst1c2 : c2sum st1.c2 = 0 := rfl
  obtain ⟨hsum, q, hqprev, hq⟩ :=
    serial2_fold ((List.range (32 * w.length - 1)).map (fun i => bitAt w (i + 1)))
      st1 (bitAt w 0) hst1prev (bitAt_le_one w 0)
      (by
        intro x hx
        obtain ⟨i, _, rfl⟩ := List.mem_map.mp hx
        exact bitAt_le_one w (i + 1))
  rw [← hloop] at hsum hqprev
  have hlen : ((List.range (32 * w.length - 1)).map fun i => bitAt w (i + 1)).length =
      32 * w.length - 1 := by simp
  rw [hlen, hst1c2] at hsum
  have hfinal : serial2C2 w = fun j =>
      if j = (q <<< 1) ||| bitAt w 0 then (serial2Loop w).c2 j + 1
      else (serial2Loop w).c2 j := by
    unfold serial2C2
    rw [hqprev]
  have : c2sum (serial2C2 w) = c2sum (serial2Loop w).c2 + 1 := by
    rw [hfinal]
    exact c2sum_update (serial2Loop w).c2 q (bitAt w 0) hq (bitAt_le_one w 0)
  show c2sum (serial2C2 w) = 32 * w.length
  rw [this, hsum]
  omega

/-- Witness for C4 at the one-word buffer `[0]`: the pair counters sum to 32. -/
theorem serial2_pair_count_total_witness :
    1 ≤ List.length [(0 : ℕ)] ∧
      serial2C2 [(0 : ℕ)] 0 + serial2C2 [(0 : ℕ)] 1 + serial2C2 [(0 : ℕ)] 2 +
        serial2C2 [(0 : ℕ)] 3 = 32 * List.length [(0 : ℕ)] :=
  ⟨by decide, serial2_pair_count_total [0] (by decide)⟩

theorem foldl_mod64 (l : List ℕ) :
    ∀ s : ℕ, s + l.sum < 2 ^ 64 → l.foldl (fun a x => (a + x) % 2 ^ 64) s = s + l.sum := by
  induction l with
  | nil => intro s _; simp
  | cons b t ih =>
    intro s h
    rw [List.foldl_cons]
    have hlt : s + b < 2 ^ 64 := by
      have : (0 : ℕ) ≤ t.sum := Nat.zero_le _
      simp only [List.sum_cons] at h
      omega
    rw [Nat.mod_eq_of_lt hlt, ih (s + b) (by simp only [List.sum_cons] at h ⊢; omega)]
    simp only [List.sum_cons]
    omega

theorem sum_lt_two_pow_64 (data : List ℕ) (hx : ∀ x ∈ data, x < 2 ^ 32)
    (hn : data.length ≤ 2 ^ 31) : data.sum < 2 ^ 64 := by
  have hb : data.sum ≤ data.length • (2 ^ 32 - 1) :=
    List.sum_le_card_nsmul data (2 ^ 32 - 1) (fun x hx' => by have := hx x hx'; omega)
  rw [smul_eq_mul] at hb
  have : data.length * (2 ^ 32 - 1) ≤ 2 ^ 31 * (2 ^ 32 - 1) :=
    Nat.mul_le_mul_right _ hn
  omega

/-- The `uint64_t` accumulator never wraps for 32-bit samples and an `int`
length, so `mean` is exactly the rational `Σ xᵢ / n`. -/
theorem mean_eq_sum_div (data : List ℕ) (hx : ∀ x ∈ data, x < 2 ^ 32)
    (hn : data.length ≤ 2 ^ 31) : mean data = (data.sum : ℚ) / data.length := by
  unfold mean
  have h := foldl_mod64 data 0 (by
    have := sum_lt_two_pow_64 data hx hn
    omega)
  rw [h]
  norm_num

/-- C8: `mean` accumulates in 64 bits without overflow, and the result is
the exact rational mean, lying in `[0, 2^32)`. -/
theorem mean_spec (data : List ℕ) (h1 : 1 ≤ data.length)
    (hx : ∀ x ∈ data, x < 2 ^ 32) (hn : data.length ≤ 2 ^ 31) :
    mean data = (data.sum : ℚ) / data.length ∧ 0 ≤ mean data ∧ mean data < 2 ^ 32 := by
  have heq := mean_eq_sum_div data hx hn
  have hlen : (0 : ℚ) < data.length := by exact_mod_cast h1
  refine ⟨heq, ?_, ?_⟩
  · rw [heq]; positivity
  · rw [heq, div_lt_iff hlen]
    have hsum : data.sum < 2 ^ 32 * data.length := by
      have hb : data.sum ≤ data.length • (2 ^ 32 - 1) :=
        List.sum_le_card_nsmul data (2 ^ 32 - 1) (fun x hx' => by have := hx x hx'; omega)
      rw [smul_eq_mul] at hb
      have h32 : data.length * (2 ^ 32 - 1) < data.length * 2 ^ 32 :=
        mul_lt_mul_of_pos_left (by omega) (by omega)
      omega
    exact_mod_cast hsum

/-- Witness for C8 at `data = [1, 2]`. -/
theorem mean_spec_witness :
    1 ≤ List.length [(1 : ℕ), 2] ∧ (∀ x ∈ [(1 : ℕ), 2], x < 2 ^ 32) ∧
      List.length [(1 : ℕ), 2] ≤ 2 ^ 31 ∧
      (mean [(1 : ℕ), 2] = (([(1 : ℕ), 2].sum : ℕ) : ℚ) / List.length [(1 : ℕ), 2] ∧
        0 ≤ mean [(1 : ℕ), 2] ∧ mean [(1 : ℕ), 2] < 2 ^ 32) :=
  ⟨by decide, by decide, by decide, mean_spec [1, 2] (by decide) (by decide) (by decide)⟩

theorem foldl_add_eq_sum (f : ℕ → ℝ) (l : List ℕ) :
    ∀ a : ℝ, l.foldl (fun acc x => acc + f x) a = a + (l.map f).sum := by
  induction l with
  | nil => intro a; simp
  | cons b t ih =>
    intro a
    rw [List.foldl_cons, ih (a + f b), List.map_cons, List.sum_cons]
    ring

theorem list_sum_zero_of_nonneg (l : List ℝ) :
    (∀ x ∈ l, 0 ≤ x) → l.sum = 0 → ∀ x ∈ l, x = 0 := by
  induction l with
  | nil => intro _ _ x hx; simp at hx
  | cons b t ih =>
    intro hpos hsum x hx
    have hb : 0 ≤ b := hpos b (by simp)
    have ht : 0 ≤ t.sum := List.sum_nonneg (fun y hy => hpos y (by simp [hy]))
    rw [List.sum_cons] at hsum
    rcases List.mem_cons.mp hx with rfl | hx'
    · linarith
    · exact ih (fun y hy => hpos y (by simp [hy])) (by linarith) x hx'

/-- C9: `stdev` is `sqrt(Σ (xᵢ - m)² / n)`, and composed with `mean` it is
nonnegative and vanishes exactly when all samples are equal. -/
theorem stdev_spec (data : List ℕ) (h1 : 1 ≤ data.length)
    (hx : ∀ x ∈ data, x < 2 ^ 32) (hn : data.length ≤ 2 ^ 31) :
    (∀ m : ℝ, stdev data m =
      Real.sqrt ((data.map (fun x : ℕ => ((x : ℝ) - m) ^ 2)).sum / data.length)) ∧
    0 ≤ stdev data ((mean data : ℚ) : ℝ) ∧
    (stdev data ((mean data : ℚ) : ℝ) = 0 ↔ ∀ x ∈ data, ∀ y ∈ data, x = y) := by
  have hform : ∀ m : ℝ, stdev data m =
      Real.sqrt ((data.map (fun x : ℕ => ((x : ℝ) - m) ^ 2)).sum / data.length) := by
    intro m
    unfold stdev
    have h := foldl_add_eq_sum (fun x : ℕ => ((x : ℝ) - m) * ((x : ℝ) - m)) data 0
    rw [zero_add] at h
    rw [show data.foldl (fun acc (x : ℕ) => acc + ((x : ℝ) - m) * ((x : ℝ) - m)) 0 =
        (data.map fun x : ℕ => ((x : ℝ) - m) * ((x : ℝ) - m)).sum from h]
    have hmap : (data.map fun x : ℕ => ((x : ℝ) - m) * ((x : ℝ) - m)) =
        data.map fun x : ℕ => ((x : ℝ) - m) ^ 2 := by
      simp only [← pow_two]
    rw [hmap]
  have hlen : (0 : ℝ) < data.length := by exact_mod_cast h1
  set m0 : ℝ := ((mean data : ℚ) : ℝ) with hm0def
  have hmean : m0 = (data.sum : ℝ) / data.length := by
    rw [hm0def, mean_eq_sum_div data hx hn, Rat.cast_div, Rat.cast_natCast, Rat.cast_natCast]
  have hnonneg : ∀ t ∈ data.map (fun x : ℕ => ((x : ℝ) - m0) ^ 2), 0 ≤ t := by
    intro t ht
    obtain ⟨x, _, rfl⟩ := List.mem_map.mp ht
    positivity
  refine ⟨hform, by rw [hform]; exact Real.sqrt_nonneg _, ?_⟩
  constructor
  · intro h0
    rw [hform m0] at h0
    have hS0 : (data.map (fun x : ℕ => ((x : ℝ) - m0) ^ 2)).sum = 0 := by
      have hdiv : (data.map (fun x : ℕ => ((x : ℝ) - m0) ^ 2)).sum / data.length ≤ 0 :=
        (Real.sqrt_eq_zero'.mp h0)
      have hSpos : 0 ≤ (data.map (fun x : ℕ => ((x : ℝ) - m0) ^ 2)).sum :=
        List.sum_nonneg hnonneg
      by_contra hne
      have hpos : 0 < (data.map (fun x : ℕ => ((x : ℝ) - m0) ^ 2)).sum :=
        lt_of_le_of_ne hSpos (Ne.symm hne)
      have : 0 < (data.map (fun x : ℕ => ((x : ℝ) - m0) ^ 2)).sum / data.length :=
        div_pos hpos hlen
      linarith
    have hterm : ∀ x ∈ data, ((x : ℝ) - m0) ^ 2 = 0 := by
      intro x hx'
      exact list_sum_zero_of_nonneg _ hnonneg hS0 _
        (List.mem_map_of_mem (fun x : ℕ => ((x : ℝ) - m0) ^ 2) hx')
    intro x hx' y hy'
    have hxe : (x : ℝ) = m0 := by
      have := pow_eq_zero_iff (n := 2) (by omega) |>.mp (hterm x hx')
      linarith
    have hye : (y : ℝ) = m0 := by
      have := pow_eq_zero_iff (n := 2) (by omega) |>.mp (hterm y hy')
      linarith
    exact_mod_cast hxe.trans hye.symm
  · intro hall
    obtain ⟨a, t, rfl⟩ : ∃ a t, data = a :: t := by
      cases data with
      | nil => simp at h1
      | cons a t => exact ⟨a, t, rfl⟩
    have hsum : (a :: t).sum = (a :: t).length • a :=
      List.sum_eq_card_nsmul (a :: t) a
        (fun x hx' => hall x hx' a (by simp))
    have hma : m0 = (a : ℝ) := by
      rw [hmean, hsum, smul_eq_mul]
      push_cast
      field_simp
    have hzero : ((a :: t).map (fun x : ℕ => ((x : ℝ) - m0) ^ 2)).sum = 0 := by
      apply List.sum_eq_zero
      intro y hy
      obtain ⟨x, hx', rfl⟩ := List.mem_map.mp hy
      have : x = a := hall x hx' a (by simp)
      rw [this, hma]
      ring
    rw [hform m0, hzero, zero_div, Real.sqrt_zero]

/-- Witness for C9 at `data = [5, 5]`. -/
theorem stdev_spec_witness :
    1 ≤ List.length [(5 : ℕ), 5] ∧ (∀ x ∈ [(5 : ℕ), 5], x < 2 ^ 32) ∧
      List.length [(5 : ℕ), 5] ≤ 2 ^ 31 ∧
      ((∀ m : ℝ, stdev [(5 : ℕ), 5] m = Real.sqrt
          (([(5 : ℕ), 5].map (fun x : ℕ => ((x : ℝ) - m) ^ 2)).sum /
            List.length [(5 : ℕ), 5])) ∧
        0 ≤ stdev [(5 : ℕ), 5] ((mean [(5 : ℕ), 5] : ℚ) : ℝ) ∧
        (stdev [(5 : ℕ), 5] ((mean [(5 : ℕ), 5] : ℚ) : ℝ) = 0 ↔
          ∀ x ∈ [(5 : ℕ), 5], ∀ y ∈ [(5 : ℕ), 5], x = y)) :=
  ⟨by decide, by decide, by decide, stdev_spec [5, 5] (by decide) (by decide) (by decide)⟩

/-- C6: `chi_squared` maps sample `x` to bin `floor(x·B / 2^32)` clamped to
`B - 1`, and on a perfectly uniform histogram (each bin exactly `n / B`
hits) the statistic is `0`. -/
theorem chi_squared_uniform_zero (data : List ℕ) (bins : ℕ)
    (h1 : 1 ≤ bins) (hnb : bins ≤ data.length) (hx : ∀ x ∈ data, x < 2 ^ 32)
    (hbins : bins ≤ 2 ^ 31) (hdvd : bins ∣ data.length)
    (hunif : ∀ i < bins, freqCount data bins (2 ^ 32) i = data.length / bins) :
    chi_squared data bins (2 ^ 32) = 0 ∧
      ∀ x < 2 ^ 32, binIdx bins (2 ^ 32) x = min (x * bins / 2 ^ 32) (bins - 1) := by
  constructor
  · unfold chi_squared
    apply Finset.sum_eq_zero
    intro i hi
    rw [hunif i (Finset.mem_range.mp hi)]
    have hcast : ((data.length / bins : ℕ) : ℚ) = (data.length : ℚ) / bins :=
      Nat.cast_div hdvd (by exact_mod_cast (by omega : bins ≠ 0))
    rw [hcast]
    simp
  · intro x hxlt
    simp only [binIdx]
    have hmul : x * bins < 2 ^ 64 := by
      have h := Nat.mul_le_mul (show x ≤ 2 ^ 32 - 1 by omega) hbins
      omega
    rw [Nat.mod_eq_of_lt hmul]
    by_cases hq : bins ≤ x * bins / 2 ^ 32
    · rw [if_pos hq]
      exact (min_eq_right (by omega)).symm
    · rw [if_neg hq]
      exact (min_eq_left (by omega)).symm

/-- Witness for C6 at `data = [0, 2^31]`, `bins = 2`: each of the two bins
receives exactly one sample and the statistic is zero. -/
theorem chi_squared_uniform_zero_witness :
    1 ≤ 2 ∧ 2 ≤ List.length [(0 : ℕ), 2 ^ 31] ∧
      (∀ x ∈ [(0 : ℕ), 2 ^ 31], x < 2 ^ 32) ∧ 2 ≤ 2 ^ 31 ∧
      2 ∣ List.length [(0 : ℕ), 2 ^ 31] ∧
      (∀ i < 2, freqCount [(0 : ℕ), 2 ^ 31] 2 (2 ^ 32) i =
        List.length [(0 : ℕ), 2 ^ 31] / 2) ∧
      (chi_squared [(0 : ℕ), 2 ^ 31] 2 (2 ^ 32) = 0 ∧
        ∀ x < 2 ^ 32, binIdx 2 (2 ^ 32) x = min (x * 2 / 2 ^ 32) (2 - 1)) :=
  ⟨by decide, by decide, by decide, by decide, by decide, by decide,
    chi_squared_uniform_zero [0, 2 ^ 31] 2 (by decide) (by decide) (by decide)
      (by decide) (by decide) (by decide)⟩

theorem onesTotal_replicate (len a : ℕ) :
    onesTotal (List.replicate len a) = len * popcount32 a := by
  unfold onesTotal
  rw [List.map_replicate, List.sum_replicate, smul_eq_mul]

/-- For an `n`-bit stream with `n ≥ 32`, the monobit statistic of a
maximally biased stream, `n / √n / √2 = √(n/2)`, is at least 4. -/
theorem monobit_arg_ge (len : ℕ) (hlen : 1 ≤ len) :
    4 ≤ (32 * len : ℝ) / Real.sqrt (32 * len) / Real.sqrt 2 := by
  have hlenR : (1 : ℝ) ≤ len := by exact_mod_cast hlen
  have hN : (32 : ℝ) ≤ (32 * len : ℝ) := by nlinarith
  have hN0 : (0 : ℝ) ≤ (32 * len : ℝ) := by linarith
  rw [Real.div_sqrt, ← Real.sqrt_div hN0 2]
  calc (4 : ℝ) = Real.sqrt 16 := by
        rw [show (16 : ℝ) = 4 ^ 2 by norm_num, Real.sqrt_sq (by norm_num)]
    _ ≤ Real.sqrt ((32 * len : ℝ) / 2) := Real.sqrt_le_sqrt (by linarith)

/-- C7: monobit passes iff `erfc(|2·ones - n| / √n / √2) ≥ 0.01`; for any
`erfc` with the standard properties `erfc 0 = 1` and `erfc x < 0.01` for
`x ≥ 4`, the all-zero and all-one buffers fail and the alternating
(`0xAAAAAAAA`) buffer passes, for every `len ≥ 1`. -/
theorem monobit_spec (erfc : ℝ → ℝ) (h0 : erfc 0 = 1)
    (h4 : ∀ x : ℝ, 4 ≤ x → erfc x < 0.01) (len : ℕ) (hlen : 1 ≤ len) :
    (∀ w : List ℕ, nist_monobit erfc w ↔
      0.01 ≤ erfc (|2 * (onesTotal w : ℝ) - (32 * w.length : ℝ)| /
        Real.sqrt (32 * w.length) / Real.sqrt 2)) ∧
    ¬ nist_monobit erfc (List.replicate len 0) ∧
    ¬ nist_monobit erfc (List.replicate len (2 ^ 32 - 1)) ∧
    nist_monobit erfc (List.replicate len 2863311530) := by
  have hN0 : (0 : ℝ) ≤ (32 * len : ℝ) := by positivity
  refine ⟨fun w => Iff.rfl, ?_, ?_, ?_⟩
  · intro hc
    simp only [nist_monobit, onesTotal_replicate, List.length_replicate] at hc
    have hval : (2 : ℝ) * ((len * popcount32 0 : ℕ) : ℝ) - (32 * len : ℝ) =
        -(32 * len : ℝ) := by
      rw [show popcount32 0 = 0 from rfl]
      push_cast
      ring
    rw [hval, abs_neg, abs_of_nonneg hN0] at hc
    have := h4 _ (monobit_arg_ge len hlen)
    linarith
  · intro hc
    simp only [nist_monobit, onesTotal_replicate, List.length_replicate] at hc
    have hval : (2 : ℝ) * ((len * popcount32 (2 ^ 32 - 1) : ℕ) : ℝ) - (32 * len : ℝ) =
        (32 * len : ℝ) := by
      rw [show popcount32 (2 ^ 32 - 1) = 32 from by decide]
      push_cast
      ring
    rw [hval, abs_of_nonneg hN0] at hc
    have := h4 _ (monobit_arg_ge len hlen)
    linarith
  · simp only [nist_monobit, onesTotal_replicate, List.length_replicate]
    have hval : (2 : ℝ) * ((len * popcount32 2863311530 : ℕ) : ℝ) - (32 * len : ℝ) =
        0 := by
      rw [show popcount32 2863311530 = 16 from by decide]
      push_cast
      ring
    rw [hval, abs_zero, zero_div, zero_div, h0]
    norm_num

/-- Witness for C7: `erfcModel` satisfies the `erfc` hypotheses, at `len = 1`. -/
theorem monobit_spec_witness :
    erfcModel 0 = 1 ∧ (∀ x : ℝ, 4 ≤ x → erfcModel x < 0.01) ∧ 1 ≤ 1 ∧
      ((∀ w : List ℕ, nist_monobit erfcModel w ↔
        0.01 ≤ erfcModel (|2 * (onesTotal w : ℝ) - (32 * w.length : ℝ)| /
          Real.sqrt (32 * w.length) / Real.sqrt 2)) ∧
      ¬ nist_monobit erfcModel (List.replicate 1 0) ∧
      ¬ nist_monobit erfcModel (List.replicate 1 (2 ^ 32 - 1)) ∧
      nist_monobit erfcModel (List.replicate 1 2863311530)) :=
  ⟨erfcModel_zero, erfcModel_small, le_refl 1,
    monobit_spec erfcModel erfcModel_zero erfcModel_small 1 (le_refl 1)⟩

theorem runs_foldl (l : List ℕ) :
    ∀ p o r : ℕ, l.foldl runsStep (p, o, r) = (lastAux p l, o + l.sum, r + changes p l) := by
  induction l with
  | nil => intro p o r; simp [lastAux, changes]
  | cons b t ih =>
    intro p o r
    rw [List.foldl_cons]
    have hstep : runsStep (p, o, r) b = (b, o + b, r + if b = p then 0 else 1) := by
      unfold runsStep
      by_cases h : b = p <;> simp [h]
    rw [hstep, ih b (o + b) (r + if b = p then 0 else 1)]
    by_cases h : b = p <;> simp [lastAux, changes, h] <;> omega

/-- The loop of `nist_runs` computes the total set-bit count and the number
of maximal runs of the bitstream. -/
theorem runsState_char (w : List ℕ) (hw : 1 ≤ w.length) :
    (runsState w).2.1 = (bitsOf w).sum ∧ (runsState w).2.2 = runsSpec (bitsOf w) := by
  obtain ⟨m, hm⟩ : ∃ m, 32 * w.length = m + 1 := ⟨32 * w.length - 1, by omega⟩
  have hm1 : 32 * w.length - 1 = m := by omega
  have hdrop : ((List.range (32 * w.length)).drop 1).map (bitAt w) =
      (List.range m).map (fun i => bitAt w (i + 1)) := by
    rw [hm, List.range_succ_eq_map, List.drop_succ_cons, List.drop_zero, List.map_map]
    rfl
  have hbits : bitsOf w =
      bitAt w 0 :: (List.range m).map (fun i => bitAt w (i + 1)) := by
    unfold bitsOf
    rw [bits_map_eq_cons w hw, hm1]
  unfold runsState
  rw [hdrop, runs_foldl ((List.range m).map (fun i => bitAt w (i + 1)))
    (bitAt w 0) (bitAt w 0) 1]
  rw [hbits]
  exact ⟨by rw [List.sum_cons], rfl⟩

/-- C3: `nist_runs` fails outright when the one-bit proportion `π` violates
the prerequisite `|π - 0.5| ≤ 2/√n`, and otherwise passes iff
`erfc(|runsCnt - 2nπ(1-π)| / (2·√(2n)·π·(1-π))) ≥ 0.01`, where `runsCnt`
is the number of maximal runs of identical consecutive bits. -/
theorem runs_precheck_spec (erfc : ℝ → ℝ) (w : List ℕ) (hw : 1 ≤ w.length) :
    (2 / Real.sqrt (32 * w.length) < |onesFrac w - 0.5| → ¬ nist_runs erfc w) ∧
    (|onesFrac w - 0.5| ≤ 2 / Real.sqrt (32 * w.length) →
      (nist_runs erfc w ↔ 0.01 ≤ erfc (|(runsSpec (bitsOf w) : ℝ) -
          2 * (32 * w.length : ℝ) * onesFrac w * (1 - onesFrac w)| /
        (2 * Real.sqrt (2 * (32 * w.length : ℝ)) * onesFrac w * (1 - onesFrac w))))) := by
  obtain ⟨ho, hr⟩ := runsState_char w hw
  simp only [nist_runs, onesFrac, ho, hr]
  constructor
  · intro hgt hpass
    exact hpass.1 hgt
  · intro hle
    constructor
    · intro hpass
      exact hpass.2
    · intro hp
      exact ⟨not_lt.mpr hle, hp⟩

/-- Witness for C3 at the all-zero one-word buffer: `π = 0` violates the
prerequisite (`0.5 > 2/√32`), so the runs test fails. -/
theorem runs_precheck_spec_witness :
    1 ≤ List.length [(0 : ℕ)] ∧
      2 / Real.sqrt (32 * List.length [(0 : ℕ)]) < |onesFrac [(0 : ℕ)] - 0.5| ∧
      ¬ nist_runs (fun _ => 0) [(0 : ℕ)] := by
  have hlen : 1 ≤ List.length [(0 : ℕ)] := by decide
  have hsum : (bitsOf [(0 : ℕ)]).sum = 0 := by decide
  have hfrac : onesFrac [(0 : ℕ)] = 0 := by
    unfold onesFrac
    rw [hsum]
    simp
  have hs4 : (4 : ℝ) < Real.sqrt 32 := by
    have h16 : (4 : ℝ) = Real.sqrt 16 := by
      rw [show (16 : ℝ) = 4 ^ 2 by norm_num, Real.sqrt_sq (by norm_num)]
    rw [h16]
    exact Real.sqrt_lt_sqrt (by norm_num) (by norm_num)
  have hspos : (0 : ℝ) < Real.sqrt 32 := by linarith
  have hlt : 2 / Real.sqrt (32 * List.length [(0 : ℕ)]) < |onesFrac [(0 : ℕ)] - 0.5| := by
    rw [hfrac, zero_sub, abs_neg, abs_of_pos (by norm_num : (0 : ℝ) < 0.5)]
    rw [show (32 * (List.length [(0 : ℕ)] : ℝ)) = 32 by norm_num]
    rw [div_lt_iff hspos]
    nlinarith
  exact ⟨hlen, hlt, (runs_precheck_spec (fun _ => 0) [0] hlen).1 hlt⟩

end NistLw3
